import Mathlib

/-!
Shallow embedding of `src/useKeysBindings.ts` from the repository
`hayzedd2/use-keys-bindings`: a keyboard-shortcut binding matcher.

The TypeScript module maintains a mutable set of currently pressed keys
(a `LowercaseSet`, a `Set<string>` subclass that lowercases on `add`,
`delete` and `has`) and three event handlers (`handleKeyDown`,
`handleKeyUp`, `handleBlur`).  Here the pressed-key set is a
duplicate-free `List String`, the handlers are pure state-transition
functions, and the observable effects of one event (which command
callbacks were invoked, which commands called `e.preventDefault()`) are
returned as lists of command indices in invocation order.
-/

namespace UseKeysBindings

/-- Model of JavaScript `value.toLowerCase()` as used by `LowercaseSet`:
lowercase each character (key identifiers in this library are ASCII). -/
def lowerStr (s : String) : String :=
  ⟨s.data.map Char.toLower⟩

/-- `LowercaseSet.add(value)`: `super.add(value.toLowerCase())`.
A JS `Set` keeps insertion order and ignores re-insertion of a member. -/
def lcAdd (s : List String) (v : String) : List String :=
  if lowerStr v ∈ s then s else s ++ [lowerStr v]

/-- `LowercaseSet.delete(value)`: `super.delete(value.toLowerCase())`. -/
def lcDelete (s : List String) (v : String) : List String :=
  s.erase (lowerStr v)

/-- `LowercaseSet.has(value)`: `super.has(value.toLowerCase())`. -/
def lcHas (s : List String) (v : String) : Bool :=
  decide (lowerStr v ∈ s)

/-- `new LowercaseSet(command.keys)`: the `Set` constructor feeds each
element of the iterable to the (overridden, lowercasing) `add`. -/
def lcOfList (ks : List String) : List String :=
  ks.foldl lcAdd []

/-- A DOM `KeyboardEvent`, restricted to the fields relevant here:
`key`, plus the raw modifier flags (which `useKeysBindings.ts` never
reads, but which the event carries). -/
structure KeyboardEvent where
  key : String
  ctrlKey : Bool := false
  shiftKey : Bool := false
  altKey : Bool := false
  metaKey : Bool := false
deriving Repr, DecidableEq

/-- The `useKeysCommand` interface: `keys`, `triggerOnAnyKey?`,
`modifiers?` (a partial record, modeled as an optional association list
from modifier name to required boolean) and `preventDefault?`.  The
`callback` field is not represented; callback invocation is reported as
the command's index in the output.  Note the interface has no
repeat-on-hold field of any kind. -/
structure Command where
  keys : List String
  triggerOnAnyKey : Bool := false
  modifiers : Option (List (String × Bool)) := none
  preventDefault : Bool := false
deriving Repr, DecidableEq

/-- `checkModifiers(pressedKeys, modifiers)`: absent or empty map
returns `true`; otherwise every entry `[modifier, required]` must
satisfy `required === pressedKeys.has(modifier)`. -/
def checkModifiers (pressedKeys : List String)
    (modifiers : Option (List (String × Bool))) : Bool :=
  match modifiers with
  | none => true
  | some mods =>
    if mods.isEmpty then true
    else mods.all fun p => p.2 == lcHas pressedKeys p.1

/-- `checkKeys(pressedKeys, keySet, triggerOnAnyKey)`: `some` of the key
set held if `triggerOnAnyKey`, else `every` key of the key set held. -/
def checkKeys (pressedKeys : List String) (keySet : List String)
    (triggerOnAnyKey : Bool) : Bool :=
  if triggerOnAnyKey then keySet.any fun k => lcHas pressedKeys k
  else keySet.all fun k => lcHas pressedKeys k

/-- Loop body of `handleKeyDown`, suppression part: command `i` calls
`e.preventDefault()` iff `command.preventDefault && keySet.has(e.key)`,
where `keySet = new LowercaseSet(command.keys)`. -/
def suppressPred (e : KeyboardEvent) (cmd : Command) : Bool :=
  cmd.preventDefault && lcHas (lcOfList cmd.keys) e.key

/-- Loop body of `handleKeyDown`, callback part: the callback runs iff
neither `continue` is taken, i.e. `checkModifiers` and `checkKeys` both
pass on the current pressed-key set.  The decision reads only the
pressed-key set and the command; the event is merely passed on to the
callback. -/
def firePred (pressed : List String) (cmd : Command) : Bool :=
  checkModifiers pressed cmd.modifiers &&
    checkKeys pressed (lcOfList cmd.keys) cmd.triggerOnAnyKey

/-- Result of one event: the new pressed-key set, the indices of
commands whose callback was invoked (in loop order), and the indices of
commands that invoked `e.preventDefault()` (in loop order). -/
structure StepOutput where
  pressed : List String
  fired : List Nat
  suppressed : List Nat
deriving Repr, DecidableEq

/-- `handleKeyDown(e)`: early-return if `pressedKeys.has(e.key)`;
otherwise add the key, then loop over the commands by index, possibly
suppressing the default action and possibly invoking the callback. -/
def handleKeyDown (cmds : List Command) (pressed : List String)
    (e : KeyboardEvent) : StepOutput :=
  if lcHas pressed e.key then ⟨pressed, [], []⟩
  else
    ⟨lcAdd pressed e.key,
     (List.range cmds.length).filter fun i =>
       match cmds[i]? with
       | some cmd => firePred (lcAdd pressed e.key) cmd
       | none => false,
     (List.range cmds.length).filter fun i =>
       match cmds[i]? with
       | some cmd => suppressPred e cmd
       | none => false⟩

/-- `handleKeyUp(e)`: `pressedKeys.current.delete(e.key)`; nothing else. -/
def handleKeyUp (pressed : List String) (e : KeyboardEvent) : StepOutput :=
  ⟨lcDelete pressed e.key, [], []⟩

/-- `handleBlur()`: `pressedKeys.current.clear()`. -/
def handleBlur : StepOutput := ⟨[], [], []⟩

/-- The notifications the window listeners deliver to the hook. -/
inductive Event where
  | keyDown (e : KeyboardEvent)
  | keyUp (e : KeyboardEvent)
  | blur
deriving Repr, DecidableEq

/-- Dispatch one event to the corresponding handler. -/
def step (cmds : List Command) (pressed : List String) : Event → StepOutput
  | .keyDown e => handleKeyDown cmds pressed e
  | .keyUp e => handleKeyUp pressed e
  | .blur => handleBlur

/-- Process a sequence of events; returns the final pressed-key set and
the per-event lists of fired command indices. -/
def run (cmds : List Command) (pressed : List String) :
    List Event → List String × List (List Nat)
  | [] => (pressed, [])
  | ev :: rest =>
    let o := step cmds pressed ev
    let r := run cmds o.pressed rest
    (r.1, o.fired :: r.2)

/-- Registration guard of `useKeys`: throws
`Error("Empty keys array is not allowed")` when some command has an
empty `keys` array, before any listener is installed. -/
def useKeys (cmds : List Command) : Except String (List Command) :=
  if cmds.any fun c => c.keys.length == 0 then
    Except.error "Empty keys array is not allowed"
  else Except.ok cmds

/-- Two key identifiers that differ at most in letter case. -/
def keyEquiv (s t : String) : Prop := lowerStr s = lowerStr t

/-- Two keyboard events that differ at most in the letter case of their
`key` field. -/
def eventEquiv (e f : KeyboardEvent) : Prop :=
  keyEquiv e.key f.key ∧ e.ctrlKey = f.ctrlKey ∧ e.shiftKey = f.shiftKey ∧
    e.altKey = f.altKey ∧ e.metaKey = f.metaKey

/-- Two optional modifier maps whose names differ at most in letter
case and whose required booleans agree. -/
def modsEquiv :
    Option (List (String × Bool)) → Option (List (String × Bool)) → Prop
  | none, none => True
  | some ms, some ns =>
    List.Forall₂ (fun p q => keyEquiv p.1 q.1 ∧ p.2 = q.2) ms ns
  | _, _ => False

/-- Two commands that differ at most in the letter case of their key
identifiers and modifier names. -/
def cmdEquiv (c d : Command) : Prop :=
  List.Forall₂ keyEquiv c.keys d.keys ∧
    c.triggerOnAnyKey = d.triggerOnAnyKey ∧
    modsEquiv c.modifiers d.modifiers ∧
    c.preventDefault = d.preventDefault

/-- Two notifications that differ at most in letter case. -/
def evEquiv : Event → Event → Prop
  | .keyDown e, .keyDown f => eventEquiv e f
  | .keyUp e, .keyUp f => eventEquiv e f
  | .blur, .blur => True
  | _, _ => False

theorem toNat_ofNat_of_valid {n : Nat} (h : n.isValidChar) :
    (Char.ofNat n).toNat = n := by
  simp [Char.ofNat, h, Char.ofNatAux, Char.toNat, UInt32.toNat,
    BitVec.toNat_ofNatLt]

theorem char_toLower_toLower (c : Char) :
    Char.toLower (Char.toLower c) = Char.toLower c := by
  unfold Char.toLower
  by_cases h : c.toNat ≥ 65 ∧ c.toNat ≤ 90
  · rw [if_pos h]
    have hv : (c.toNat + 32).isValidChar := Or.inl (by omega)
    rw [toNat_ofNat_of_valid hv]
    rw [if_neg (by omega)]
  · rw [if_neg h, if_neg h]

theorem lowerStr_idem (s : String) : lowerStr (lowerStr s) = lowerStr s := by
  simp only [lowerStr, List.map_map]
  exact congrArg String.mk (List.map_congr_left fun a _ => char_toLower_toLower a)

theorem lcHas_true_iff {s : List String} {v : String} :
    lcHas s v = true ↔ lowerStr v ∈ s := by
  simp [lcHas]

theorem lcHas_lowerStr (s : List String) (v : String) :
    lcHas s (lowerStr v) = lcHas s v := by
  simp [lcHas, lowerStr_idem]

theorem mem_foldl_lcAdd {ks : List String} {acc : List String} {x : String} :
    x ∈ ks.foldl lcAdd acc ↔ x ∈ acc ∨ ∃ k ∈ ks, x = lowerStr k := by
  induction ks generalizing acc with
  | nil => simp
  | cons k ks ih =>
    simp only [List.foldl_cons, ih, lcAdd]
    by_cases h : lowerStr k ∈ acc
    · rw [if_pos h]
      constructor
      · rintro (hx | hx)
        · exact Or.inl hx
        · exact Or.inr (by simpa using Or.inr hx)
      · rintro (hx | ⟨k', hk', rfl⟩)
        · exact Or.inl hx
        · rcases List.mem_cons.mp hk' with rfl | hk'
          · exact Or.inl h
          · exact Or.inr ⟨k', hk', rfl⟩
    · rw [if_neg h]
      simp only [List.mem_append, List.mem_singleton]
      constructor
      · rintro (⟨hx | rfl⟩ | hx)
        · exact Or.inl hx
        · exact Or.inr ⟨k, List.mem_cons_self _ _, rfl⟩
        · exact Or.inr (by simpa using Or.inr hx)
      · rintro (hx | ⟨k', hk', rfl⟩)
        · exact Or.inl (Or.inl hx)
        · rcases List.mem_cons.mp hk' with rfl | hk'
          · exact Or.inl (Or.inr rfl)
          · exact Or.inr ⟨k', hk', rfl⟩

theorem mem_lcOfList {ks : List String} {x : String} :
    x ∈ lcOfList ks ↔ ∃ k ∈ ks, x = lowerStr k := by
  simp [lcOfList, mem_foldl_lcAdd]

theorem checkKeys_all_iff {p ks : List String} :
    checkKeys p (lcOfList ks) false = true ↔ ∀ k ∈ ks, lcHas p k = true := by
  simp only [checkKeys, Bool.false_eq_true, if_false, List.all_eq_true]
  constructor
  · intro h k hk
    rw [← lcHas_lowerStr]
    exact h _ (mem_lcOfList.mpr ⟨k, hk, rfl⟩)
  · rintro h x hx
    rcases mem_lcOfList.mp hx with ⟨k, hk, rfl⟩
    rw [lcHas_lowerStr]
    exact h k hk

theorem checkKeys_any_iff {p ks : List String} :
    checkKeys p (lcOfList ks) true = true ↔ ∃ k ∈ ks, lcHas p k = true := by
  simp only [checkKeys, if_true, List.any_eq_true]
  constructor
  · rintro ⟨x, hx, hpx⟩
    rcases mem_lcOfList.mp hx with ⟨k, hk, rfl⟩
    rw [lcHas_lowerStr] at hpx
    exact ⟨k, hk, hpx⟩
  · rintro ⟨k, hk, hpk⟩
    exact ⟨lowerStr k, mem_lcOfList.mpr ⟨k, hk, rfl⟩, by rwa [lcHas_lowerStr]⟩

theorem lcHas_lcAdd_self (p : List String) (v : String) :
    lcHas (lcAdd p v) v = true := by
  simp only [lcAdd, lcHas_true_iff]
  by_cases h : lowerStr v ∈ p
  · rwa [if_pos h]
  · rw [if_neg h]
    simp

theorem lcHas_lcAdd_of_lcHas {p : List String} (v : String) {k : String}
    (h : lcHas p k = true) : lcHas (lcAdd p v) k = true := by
  rw [lcHas_true_iff] at h ⊢
  unfold lcAdd
  by_cases hv : lowerStr v ∈ p
  · rwa [if_pos hv]
  · rw [if_neg hv]
    exact List.mem_append_left _ h

theorem handleKeyDown_of_held {cmds : List Command} {pressed : List String}
    {e : KeyboardEvent} (h : lcHas pressed e.key = true) :
    handleKeyDown cmds pressed e = ⟨pressed, [], []⟩ := by
  simp [handleKeyDown, h]

theorem handleKeyDown_pressed_of_fresh {cmds : List Command}
    {pressed : List String} {e : KeyboardEvent}
    (hfresh : lcHas pressed e.key = false) :
    (handleKeyDown cmds pressed e).pressed = lcAdd pressed e.key := by
  simp [handleKeyDown, hfresh]

theorem mem_fired_iff {cmds : List Command} {pressed : List String}
    {e : KeyboardEvent} {i : Nat} (hfresh : lcHas pressed e.key = false) :
    i ∈ (handleKeyDown cmds pressed e).fired ↔
      ∃ h : i < cmds.length, firePred (lcAdd pressed e.key) cmds[i] = true := by
  simp only [handleKeyDown, hfresh, Bool.false_eq_true, if_false,
    List.mem_filter, List.mem_range]
  constructor
  · rintro ⟨hi, hp⟩
    rw [List.getElem?_eq_getElem hi] at hp
    exact ⟨hi, hp⟩
  · rintro ⟨hi, hp⟩
    refine ⟨hi, ?_⟩
    rwa [List.getElem?_eq_getElem hi]

theorem mem_suppressed_iff {cmds : List Command} {pressed : List String}
    {e : KeyboardEvent} {i : Nat} (hfresh : lcHas pressed e.key = false) :
    i ∈ (handleKeyDown cmds pressed e).suppressed ↔
      ∃ h : i < cmds.length, suppressPred e cmds[i] = true := by
  simp only [handleKeyDown, hfresh, Bool.false_eq_true, if_false,
    List.mem_filter, List.mem_range]
  constructor
  · rintro ⟨hi, hp⟩
    rw [List.getElem?_eq_getElem hi] at hp
    exact ⟨hi, hp⟩
  · rintro ⟨hi, hp⟩
    refine ⟨hi, ?_⟩
    rwa [List.getElem?_eq_getElem hi]

theorem lcHas_congr {v v' : String} (s : List String) (h : keyEquiv v v') :
    lcHas s v = lcHas s v' := by
  simp only [lcHas, keyEquiv] at *
  rw [h]

theorem lcAdd_congr {v v' : String} (s : List String) (h : keyEquiv v v') :
    lcAdd s v = lcAdd s v' := by
  simp only [lcAdd, keyEquiv] at *
  rw [h]

theorem lcDelete_congr {v v' : String} (s : List String) (h : keyEquiv v v') :
    lcDelete s v = lcDelete s v' := by
  simp only [lcDelete, keyEquiv] at *
  rw [h]

theorem lcOfList_congr {ks ks' : List String}
    (h : List.Forall₂ keyEquiv ks ks') : lcOfList ks = lcOfList ks' := by
  unfold lcOfList
  suffices hgen : ∀ acc, ks.foldl lcAdd acc = ks'.foldl lcAdd acc from hgen []
  induction h with
  | nil => intro acc; rfl
  | cons hk hrest ih =>
    intro acc
    simp only [List.foldl_cons]
    rw [lcAdd_congr acc hk]
    exact ih _

theorem mods_all_congr (p : List String) {ms ns : List (String × Bool)}
    (h : List.Forall₂ (fun a b => keyEquiv a.1 b.1 ∧ a.2 = b.2) ms ns) :
    (ms.all fun q => q.2 == lcHas p q.1) =
      (ns.all fun q => q.2 == lcHas p q.1) := by
  induction h with
  | nil => rfl
  | cons hab hrest ih =>
    simp only [List.all_cons, ih]
    rw [hab.2, lcHas_congr p hab.1]

theorem checkModifiers_congr {ms ns : Option (List (String × Bool))}
    (p : List String) (h : modsEquiv ms ns) :
    checkModifiers p ms = checkModifiers p ns := by
  match ms, ns with
  | none, none => rfl
  | none, some _ => exact absurd h (by simp [modsEquiv])
  | some _, none => exact absurd h (by simp [modsEquiv])
  | some ms, some ns =>
    simp only [modsEquiv] at h
    cases h with
    | nil => rfl
    | cons hab hrest =>
      simp only [checkModifiers, List.isEmpty_cons, Bool.false_eq_true,
        if_false]
      exact mods_all_congr p (List.Forall₂.cons hab hrest)

theorem checkKeys_congr {ks ks' : List String} (p : List String)
    (h : List.Forall₂ keyEquiv ks ks') (t : Bool) :
    checkKeys p (lcOfList ks) t = checkKeys p (lcOfList ks') t := by
  rw [lcOfList_congr h]

theorem firePred_congr {c d : Command} (p : List String) (h : cmdEquiv c d) :
    firePred p c = firePred p d := by
  obtain ⟨hkeys, htrig, hmods, -⟩ := h
  unfold firePred
  rw [checkModifiers_congr p hmods, checkKeys_congr p hkeys, htrig]

theorem suppressPred_congr {c d : Command} {e f : KeyboardEvent}
    (hc : cmdEquiv c d) (he : keyEquiv e.key f.key) :
    suppressPred e c = suppressPred f d := by
  obtain ⟨hkeys, -, -, hpd⟩ := hc
  unfold suppressPred
  rw [hpd, lcOfList_congr hkeys, lcHas_congr _ he]

theorem forall₂_getElem? {α β : Type} {R : α → β → Prop} {l : List α}
    {l' : List β} (h : List.Forall₂ R l l') (i : Nat) :
    (l[i]? = none ∧ l'[i]? = none) ∨
      ∃ a b, l[i]? = some a ∧ l'[i]? = some b ∧ R a b := by
  induction h generalizing i with
  | nil => simp
  | cons hR hrest ih =>
    cases i with
    | zero =>
      right
      refine ⟨_, _, ?_, ?_, hR⟩ <;> simp
    | succ n =>
      simpa using ih n

theorem handleKeyDown_congr {cmds cmds' : List Command}
    (pressed : List String) {e e' : KeyboardEvent}
    (hc : List.Forall₂ cmdEquiv cmds cmds') (he : eventEquiv e e') :
    handleKeyDown cmds pressed e = handleKeyDown cmds' pressed e' := by
  have hkey : keyEquiv e.key e'.key := he.1
  have hlen : cmds.length = cmds'.length := List.Forall₂.length_eq hc
  unfold handleKeyDown
  rw [lcHas_congr pressed hkey, lcAdd_congr pressed hkey, ← hlen]
  by_cases hheld : lcHas pressed e'.key = true
  · rw [if_pos hheld, if_pos hheld]
  · rw [if_neg hheld, if_neg hheld]
    have hfire : ∀ i ∈ List.range cmds.length,
        (match cmds[i]? with
          | some cmd => firePred (lcAdd pressed e'.key) cmd
          | none => false) =
        (match cmds'[i]? with
          | some cmd => firePred (lcAdd pressed e'.key) cmd
          | none => false) := by
      intro i _
      rcases forall₂_getElem? hc i with ⟨h1, h2⟩ | ⟨a, b, h1, h2, hab⟩
      · rw [h1, h2]
      · rw [h1, h2]
        exact firePred_congr _ hab
    have hsupp : ∀ i ∈ List.range cmds.length,
        (match cmds[i]? with
          | some cmd => suppressPred e cmd
          | none => false) =
        (match cmds'[i]? with
          | some cmd => suppressPred e' cmd
          | none => false) := by
      intro i _
      rcases forall₂_getElem? hc i with ⟨h1, h2⟩ | ⟨a, b, h1, h2, hab⟩
      · rw [h1, h2]
      · rw [h1, h2]
        exact suppressPred_congr hab hkey
    rw [List.filter_congr hfire, List.filter_congr hsupp]

/-- Claim C1: on a key-down whose normalized key is not already held,
for a command whose modifier check passes, its callback is invoked iff
all keys of its key set are held after the pressed key is added (or at
least one of them, when `triggerOnAnyKey` is set). -/
theorem c1_key_check (cmds : List Command) (pressed : List String)
    (e : KeyboardEvent) (i : Nat) (hi : i < cmds.length)
    (hfresh : lcHas pressed e.key = false)
    (hmod : checkModifiers (lcAdd pressed e.key) cmds[i].modifiers = true) :
    i ∈ (handleKeyDown cmds pressed e).fired ↔
      if cmds[i].triggerOnAnyKey then
        ∃ k ∈ cmds[i].keys, lcHas (lcAdd pressed e.key) k = true
      else
        ∀ k ∈ cmds[i].keys, lcHas (lcAdd pressed e.key) k = true := by
  have hiff : firePred (lcAdd pressed e.key) cmds[i] = true ↔
      (if cmds[i].triggerOnAnyKey then
        ∃ k ∈ cmds[i].keys, lcHas (lcAdd pressed e.key) k = true
      else
        ∀ k ∈ cmds[i].keys, lcHas (lcAdd pressed e.key) k = true) := by
    unfold firePred
    rw [hmod, Bool.true_and]
    by_cases hany : cmds[i].triggerOnAnyKey = true
    · rw [if_pos hany, hany]
      exact checkKeys_any_iff
    · rw [if_neg hany]
      rw [Bool.not_eq_true] at hany
      rw [hany]
      exact checkKeys_all_iff
  rw [mem_fired_iff hfresh]
  constructor
  · rintro ⟨_, hp⟩
    exact hiff.mp hp
  · intro h
    exact ⟨hi, hiff.mpr h⟩

/-- Witness for C1: with keys `a` and `b` required, `a` held and a
fresh key-down for `b`, command 0 fires. -/
theorem c1_witness :
    0 ∈ (handleKeyDown [⟨["a", "b"], false, none, false⟩] ["a"]
      ⟨"b", false, false, false, false⟩).fired :=
  (c1_key_check [⟨["a", "b"], false, none, false⟩] ["a"]
      ⟨"b", false, false, false, false⟩ 0 (by decide) (by decide)
      (by decide)).mpr (by decide)

/-- Claim C2: a command whose `modifiers` map names at least one
modifier fires only when every named modifier's required boolean equals
its held state; a command with an absent or empty `modifiers` map is
gated by the key check alone (no modifier constraint). -/
theorem c2_modifier_gate (cmds : List Command) (pressed : List String)
    (e : KeyboardEvent) (i : Nat) (hi : i < cmds.length)
    (hfresh : lcHas pressed e.key = false) :
    (∀ mods, cmds[i].modifiers = some mods →
      i ∈ (handleKeyDown cmds pressed e).fired →
      ∀ p ∈ mods, p.2 = lcHas (lcAdd pressed e.key) p.1) ∧
    ((cmds[i].modifiers = none ∨ cmds[i].modifiers = some []) →
      (i ∈ (handleKeyDown cmds pressed e).fired ↔
        checkKeys (lcAdd pressed e.key) (lcOfList cmds[i].keys)
          cmds[i].triggerOnAnyKey = true)) := by
  constructor
  · intro mods hmods hfired p hp
    rw [mem_fired_iff hfresh] at hfired
    obtain ⟨_, hpred⟩ := hfired
    unfold firePred at hpred
    rw [Bool.and_eq_true] at hpred
    have hcm := hpred.1
    rw [hmods] at hcm
    simp only [checkModifiers] at hcm
    by_cases hemp : mods.isEmpty
    · rw [List.isEmpty_iff] at hemp
      subst hemp
      simp at hp
    · rw [if_neg hemp, List.all_eq_true] at hcm
      have := hcm p hp
      rwa [beq_iff_eq] at this
  · intro hnone
    rw [mem_fired_iff hfresh]
    have hcm : checkModifiers (lcAdd pressed e.key) cmds[i].modifiers = true := by
      rcases hnone with h | h <;> rw [h] <;> rfl
    constructor
    · rintro ⟨_, hpred⟩
      unfold firePred at hpred
      rw [Bool.and_eq_true] at hpred
      exact hpred.2
    · intro hkeys
      refine ⟨hi, ?_⟩
      unfold firePred
      rw [hcm, Bool.true_and]
      exact hkeys

/-- Witness for C2: a command requiring `Control` fires with `control`
held, and the required boolean matches the held state. -/
theorem c2_witness :
    true = lcHas (lcAdd ["control"] ("s" : String)) "Control" :=
  (c2_modifier_gate [⟨["s"], false, some [("Control", true)], false⟩]
      ["control"] ⟨"s", false, false, false, false⟩ 0 (by decide)
      (by decide)).1 [("Control", true)] (by decide) (by decide)
    ("Control", true) (by decide)

/-- Claim C3 (divergence witness): a second key-down for an already
held key produces no callback at all in `handleKeyDown` — the handler
early-returns before evaluating any command, and the `useKeysCommand`
interface has no repeat-on-hold field that could change this — so the
documented `enableKeyRepeatOnHold` behavior (fire on every repeat
notification) is not implemented. -/
theorem c3_repeat_keydown_fires_once :
    run [⟨["ArrowUp"], false, none, false⟩] []
      [Event.keyDown ⟨"ArrowUp", false, false, false, false⟩,
       Event.keyDown ⟨"ArrowUp", false, false, false, false⟩] =
      (["arrowup"], [[0], []]) := by decide

/-- Counterexample to C4 as stated: the key `a` is already held, the
only command has `preventDefault` set and its key set contains `a`, yet
a key-down for `a` invokes no default-action suppression — the early
return for already-held keys precedes the `preventDefault` loop. -/
theorem c4_counterexample :
    lcHas ["a"] "a" = true ∧
    (⟨["a"], false, none, true⟩ : Command).preventDefault = true ∧
    lcHas (lcOfList (⟨["a"], false, none, true⟩ : Command).keys) "a" = true ∧
    (handleKeyDown [⟨["a"], false, none, true⟩] ["a"]
      ⟨"a", false, false, false, false⟩).suppressed = [] := by decide

/-- Claim C4 as amended: command `i` invokes `e.preventDefault()` iff
the event's key is NOT already held, the command has `preventDefault`
set, and the command's key set contains the normalized key —
independently of the outcome of the modifier and key checks. -/
theorem c4_suppression (cmds : List Command) (pressed : List String)
    (e : KeyboardEvent) (i : Nat) (hi : i < cmds.length) :
    i ∈ (handleKeyDown cmds pressed e).suppressed ↔
      lcHas pressed e.key = false ∧ cmds[i].preventDefault = true ∧
        lcHas (lcOfList cmds[i].keys) e.key = true := by
  by_cases hheld : lcHas pressed e.key = true
  · rw [handleKeyDown_of_held hheld]
    simp [hheld]
  · rw [Bool.not_eq_true] at hheld
    rw [mem_suppressed_iff hheld]
    constructor
    · rintro ⟨_, hp⟩
      unfold suppressPred at hp
      rw [Bool.and_eq_true] at hp
      exact ⟨hheld, hp.1, hp.2⟩
    · rintro ⟨-, hpd, hks⟩
      refine ⟨hi, ?_⟩
      unfold suppressPred
      rw [Bool.and_eq_true]
      exact ⟨hpd, hks⟩

/-- Witness for the amended C4: fresh key-down for `a` with a
`preventDefault` command on `a` suppresses the default action. -/
theorem c4_witness :
    0 ∈ (handleKeyDown [⟨["a"], false, none, true⟩] []
      ⟨"a", false, false, false, false⟩).suppressed :=
  (c4_suppression [⟨["a"], false, none, true⟩] []
    ⟨"a", false, false, false, false⟩ 0 (by decide)).mpr (by decide)

/-- Claim C5: registration fails with the configuration error exactly
when some command declares an empty `keys` array, and succeeds (same
command list, no error) when every `keys` array is non-empty. -/
theorem c5_empty_keys (cmds : List Command) :
    (useKeys cmds = Except.error "Empty keys array is not allowed" ↔
      ∃ c ∈ cmds, c.keys = []) ∧
    ((∀ c ∈ cmds, c.keys ≠ []) → useKeys cmds = Except.ok cmds) := by
  unfold useKeys
  by_cases h : (cmds.any fun c => c.keys.length == 0) = true
  · rw [if_pos h]
    simp only [List.any_eq_true, beq_iff_eq, List.length_eq_zero] at h
    constructor
    · exact iff_of_true rfl h
    · intro hne
      obtain ⟨c, hc, hl⟩ := h
      exact absurd hl (hne c hc)
  · rw [if_neg h]
    simp only [List.any_eq_true, beq_iff_eq, List.length_eq_zero] at h
    push_neg at h
    constructor
    · constructor
      · intro he
        exact Except.noConfusion he
      · intro hex
        obtain ⟨c, hc, hl⟩ := hex
        exact absurd hl (h c hc)
    · intro _
      rfl

/-- Witness for C5: a command list with non-empty `keys` registers
without error. -/
theorem c5_witness :
    useKeys [⟨["a"], false, none, false⟩] =
      Except.ok [⟨["a"], false, none, false⟩] :=
  (c5_empty_keys [⟨["a"], false, none, false⟩]).2 (by decide)

/-- Claim C6: all key comparisons are case-insensitive — changing only
the letter case of any key identifier (in a command's keys, in a
modifier name, or in an event's key) leaves the entire step output
(held keys, fired commands, suppressed commands) unchanged. -/
theorem c6_case_insensitive (cmds cmds' : List Command)
    (pressed : List String) (ev ev' : Event)
    (hc : List.Forall₂ cmdEquiv cmds cmds') (hev : evEquiv ev ev') :
    step cmds pressed ev = step cmds' pressed ev' := by
  match ev, ev' with
  | Event.keyDown e, Event.keyDown e' =>
    exact handleKeyDown_congr pressed hc hev
  | Event.keyDown _, Event.keyUp _ => exact absurd hev (by simp [evEquiv])
  | Event.keyDown _, Event.blur => exact absurd hev (by simp [evEquiv])
  | Event.keyUp _, Event.keyDown _ => exact absurd hev (by simp [evEquiv])
  | Event.keyUp e, Event.keyUp e' =>
    show handleKeyUp pressed e = handleKeyUp pressed e'
    unfold handleKeyUp
    rw [lcDelete_congr pressed hev.1]
  | Event.keyUp _, Event.blur => exact absurd hev (by simp [evEquiv])
  | Event.blur, Event.keyDown _ => exact absurd hev (by simp [evEquiv])
  | Event.blur, Event.keyUp _ => exact absurd hev (by simp [evEquiv])
  | Event.blur, Event.blur => rfl

/-- Witness for C6: the same binding and event in three different
casings produce identical step output. -/
theorem c6_witness :
    step [⟨["ArrowUp"], false, some [("Control", true)], true⟩] []
      (Event.keyDown ⟨"ARROWUP", false, false, false, false⟩) =
    step [⟨["arrowup"], false, some [("control", true)], true⟩] []
      (Event.keyDown ⟨"arrowUp", false, false, false, false⟩) := by
  apply c6_case_insensitive
  · refine List.Forall₂.cons ?_ List.Forall₂.nil
    refine ⟨List.Forall₂.cons ?_ List.Forall₂.nil, rfl, ?_, rfl⟩
    · show lowerStr _ = lowerStr _
      decide
    · show List.Forall₂ _ [(("Control" : String), true)]
        [(("control" : String), true)]
      refine List.Forall₂.cons ⟨?_, rfl⟩ List.Forall₂.nil
      show lowerStr _ = lowerStr _
      decide
  · show eventEquiv _ _
    refine ⟨?_, rfl, rfl, rfl, rfl⟩
    show lowerStr _ = lowerStr _
    decide

/-- Claim C7: focus-loss clears the held-key set, and a subsequent
key-down for a key held before the blur is a fresh press: the key is
re-added and every command is evaluated (whereas without the blur the
same key-down would be skipped entirely). -/
theorem c7_blur_then_fresh_press (cmds : List Command)
    (pressed : List String) (e : KeyboardEvent) (i : Nat)
    (hi : i < cmds.length) (hheld : lcHas pressed e.key = true) :
    (step cmds pressed Event.blur).pressed = [] ∧
    (step cmds pressed (Event.keyDown e)).fired = [] ∧
    lcHas (step cmds (step cmds pressed Event.blur).pressed
      (Event.keyDown e)).pressed e.key = true ∧
    (i ∈ (step cmds (step cmds pressed Event.blur).pressed
        (Event.keyDown e)).fired ↔
      firePred (lcAdd [] e.key) cmds[i] = true) := by
  have hfresh : lcHas ([] : List String) e.key = false := by
    simp [lcHas]
  refine ⟨rfl, ?_, ?_, ?_⟩
  · show (handleKeyDown cmds pressed e).fired = []
    rw [handleKeyDown_of_held hheld]
  · show lcHas (handleKeyDown cmds [] e).pressed e.key = true
    rw [handleKeyDown_pressed_of_fresh hfresh]
    exact lcHas_lcAdd_self [] e.key
  · show i ∈ (handleKeyDown cmds [] e).fired ↔ _
    rw [mem_fired_iff hfresh]
    constructor
    · rintro ⟨_, hp⟩
      exact hp
    · intro h
      exact ⟨hi, h⟩

/-- Witness for C7: with `a` held, blur then key-down `a` re-fires the
command bound to `a`. -/
theorem c7_witness :
    0 ∈ (step [⟨["a"], false, none, false⟩]
      (step [⟨["a"], false, none, false⟩] ["a"] Event.blur).pressed
      (Event.keyDown ⟨"a", false, false, false, false⟩)).fired :=
  ((c7_blur_then_fresh_press [⟨["a"], false, none, false⟩] ["a"]
      ⟨"a", false, false, false, false⟩ 0 (by decide)
      (by decide)).2.2.2).mpr (by decide)

/-- Claim C8: a key-up only removes the event's normalized key from the
held-key set; every other key's membership is unchanged, no callback
fires and no default action is suppressed. -/
theorem c8_keyup_only_removes (cmds : List Command) (pressed : List String)
    (e : KeyboardEvent) (m : String) (hm : m ≠ lowerStr e.key) :
    (step cmds pressed (Event.keyUp e)).pressed =
        pressed.erase (lowerStr e.key) ∧
    (step cmds pressed (Event.keyUp e)).fired = [] ∧
    (step cmds pressed (Event.keyUp e)).suppressed = [] ∧
    (m ∈ (step cmds pressed (Event.keyUp e)).pressed ↔ m ∈ pressed) := by
  refine ⟨rfl, rfl, rfl, ?_⟩
  show m ∈ pressed.erase (lowerStr e.key) ↔ m ∈ pressed
  exact List.mem_erase_of_ne hm

/-- Witness for C8: releasing `a` keeps `b` held. -/
theorem c8_witness :
    "b" ∈ (step [] ["a", "b"]
      (Event.keyUp ⟨"a", false, false, false, false⟩)).pressed ↔
      "b" ∈ (["a", "b"] : List String) :=
  (c8_keyup_only_removes [] ["a", "b"] ⟨"a", false, false, false, false⟩
    "b" (by decide)).2.2.2

/-- Claim C9: modifier state is read from the held-key set, not from
the event's raw flags: the step output is unchanged by the event's
modifier flags, and a command requiring modifier `m` to be true fires
only when `m`'s key name is in the held-key set at evaluation time. -/
theorem c9_modifiers_from_held_set (cmds : List Command)
    (pressed : List String) (e e' : KeyboardEvent) (hkey : e.key = e'.key)
    (i : Nat) (hi : i < cmds.length) (mods : List (String × Bool))
    (hmods : cmds[i].modifiers = some mods) (m : String)
    (hm : (m, true) ∈ mods) :
    step cmds pressed (Event.keyDown e) = step cmds pressed (Event.keyDown e') ∧
    (i ∈ (step cmds pressed (Event.keyDown e)).fired →
      lcHas (lcAdd pressed e.key) m = true) := by
  constructor
  · show handleKeyDown cmds pressed e = handleKeyDown cmds pressed e'
    unfold handleKeyDown suppressPred
    rw [hkey]
  · intro hfired
    by_cases hheld : lcHas pressed e.key = true
    · rw [show step cmds pressed (Event.keyDown e) = handleKeyDown cmds pressed e
        from rfl, handleKeyDown_of_held hheld] at hfired
      simp at hfired
    · rw [Bool.not_eq_true] at hheld
      rw [show step cmds pressed (Event.keyDown e) = handleKeyDown cmds pressed e
        from rfl, mem_fired_iff hheld] at hfired
      obtain ⟨_, hp⟩ := hfired
      unfold firePred at hp
      rw [Bool.and_eq_true] at hp
      have hcm := hp.1
      rw [hmods] at hcm
      simp only [checkModifiers] at hcm
      have hne : ¬mods.isEmpty = true := by
        intro habs
        rw [List.isEmpty_iff] at habs
        subst habs
        simp at hm
      rw [if_neg hne, List.all_eq_true] at hcm
      have := hcm (m, true) hm
      rw [beq_iff_eq] at this
      exact this.symm

/-- Witness for C9: an event with `ctrlKey` raised and one without give
identical output for a `Control`-requiring command with `control` held. -/
theorem c9_witness :
    step [⟨["s"], false, some [("Control", true)], false⟩] ["control"]
      (Event.keyDown ⟨"s", true, false, false, false⟩) =
    step [⟨["s"], false, some [("Control", true)], false⟩] ["control"]
      (Event.keyDown ⟨"s", false, false, false, false⟩) :=
  (c9_modifiers_from_held_set [⟨["s"], false, some [("Control", true)], false⟩]
    ["control"] ⟨"s", true, false, false, false⟩
    ⟨"s", false, false, false, false⟩ rfl 0 (by decide)
    [("Control", true)] (by decide) "Control" (by decide)).1

/-- Claim C10: a command with `triggerOnAnyKey = false` whose keys are
all already held and whose modifier check passes fires again on a fresh
key-down for a key outside its key set. -/
theorem c10_unrelated_key_refires (cmds : List Command)
    (pressed : List String) (e : KeyboardEvent) (i : Nat)
    (hi : i < cmds.length)
    (hfresh : lcHas pressed e.key = false)
    (hany : cmds[i].triggerOnAnyKey = false)
    (hkeys : ∀ k ∈ cmds[i].keys, lcHas pressed k = true)
    (hmods : checkModifiers (lcAdd pressed e.key) cmds[i].modifiers = true)
    (hunrelated : lcHas (lcOfList cmds[i].keys) e.key = false) :
    i ∈ (handleKeyDown cmds pressed e).fired := by
  rw [mem_fired_iff hfresh]
  refine ⟨hi, ?_⟩
  unfold firePred
  rw [hmods, Bool.true_and, hany]
  exact checkKeys_all_iff.mpr fun k hk => lcHas_lcAdd_of_lcHas _ (hkeys k hk)

/-- Witness for C10: with `a` and `b` held, a key-down for the
unrelated key `x` re-fires the all-keys command on `a` and `b`. -/
theorem c10_witness :
    0 ∈ (handleKeyDown [⟨["a", "b"], false, none, false⟩] ["a", "b"]
      ⟨"x", false, false, false, false⟩).fired :=
  c10_unrelated_key_refires [⟨["a", "b"], false, none, false⟩] ["a", "b"]
    ⟨"x", false, false, false, false⟩ 0 (by decide) (by decide) (by decide)
    (by decide) (by decide) (by decide)

end UseKeysBindings
